import Mathlib

/-!
Verification development for `morph_tagger/layers.py`.

The file gives a shallow embedding of the control flow of

  * `EncoderRNN.forward`   (context-vector alignment over subword tokens),
  * `DecoderRNN.predict`   (greedy decoding),
  * `DecoderRNN.predict_beam` (beam-search decoding), and
  * `TransformerRNN.predict` (edit-label post-processing),

and proves the behavioural claims about them.

Modelling conventions.  The learned numeric kernel of a decoder
(`embedding` + `gru` + `classifier`) is abstracted as a pair of functions
`rawScores : hidden -> lastToken -> List Q` (the classifier scores, one
rational per vocabulary index) and `nextHidden : hidden -> lastToken -> Nat`
(the opaque recurrent state, encoded as a natural number).  The claims under
study quantify over all weight settings, so this abstraction is exact for
them.  `softmax` applies the exponential pointwise and normalises; the
exponential is transcendental, so it is carried as a model field `expF`
together with the two facts of it the code relies on: positivity and strict
monotonicity (real `exp` satisfies both).  Scores are rationals; fallible
operations (`[0]` on a possibly empty Python list, `torch.stack` on a
possibly empty list) are returned through `Option`, with `none` marking the
raised exception.  The beam-search `while states:` loop of
`predict_beam` is not structurally terminating (and indeed need not
terminate for a pathological vocabulary, see the C10 counterexample), so it
is indexed by explicit fuel: one unit of fuel is one iteration of the outer
`while` loop, and the termination claims are proved as fuel-stability
statements.
-/

namespace MorphTagger

/-- Abstraction of the learned kernel of `DecoderRNN` (layers.py lines
82-117).  `index2token` is the inverse vocabulary (`self.index2token`),
`rawScores h t` the classifier scores emitted after one GRU step from
recurrent state `h` on input token `t`, `nextHidden h t` the successor
recurrent state, and `expF` the pointwise exponential used by
`self.softmax`, carried with the two properties of `exp` the code depends
on. -/
structure DecoderModel where
  index2token : Nat → String
  rawScores : Nat → Nat → List ℚ
  nextHidden : Nat → Nat → Nat
  expF : ℚ → ℚ
  expPos : ∀ q : ℚ, 0 < expF q
  expMono : ∀ a b : ℚ, a < b → expF a < expF b

/-- `torch.nn.Softmax` over a score list: exponentiate pointwise and divide
by the total (layers.py line 117 / 230). -/
def softmaxList (M : DecoderModel) (s : List ℚ) : List ℚ :=
  s.map (fun x => M.expF x / (s.map M.expF).sum)

/-- Index of the largest entry of `l` that is not yet in `taken`
(first index wins ties), or `none` when every index is taken.  Building
block of `torch.topk`. -/
def selectMax (l : List ℚ) (taken : List Nat) : Option Nat :=
  match (List.range l.length).filter (fun i => ! taken.contains i) with
  | [] => none
  | c :: cs => some (cs.foldl (fun b i => if l.getD b 0 < l.getD i 0 then i else b) c)

/-- Auxiliary selection loop for `topkIdx`: `k` further rounds of
`selectMax`, accumulating the chosen indices in selection order. -/
def topkAux (l : List ℚ) : Nat → List Nat → List Nat
  | 0, taken => taken
  | k + 1, taken =>
    match selectMax l taken with
    | none => taken
    | some i => topkAux l k (taken ++ [i])

/-- Model of `tensor.topk(k)`: the indices of the `k` largest entries of
`l`, in decreasing order of value, earlier index first on ties. -/
def topkIdx (k : Nat) (l : List ℚ) : List Nat :=
  topkAux l k []

/-- The first selected index (the arg-max used by `topk(1)` in
`DecoderRNN.predict`); `0` on an empty score list. -/
def firstIdx (l : List Nat) : Nat :=
  l.headD 0

/-- One beam-search state: the `State` namedtuple of `predict_beam`
(layers.py line 210). -/
structure BeamState where
  prediction : String
  score : ℚ
  normalizedScore : ℚ
  lastOutput : Nat
  hidden : Nat
deriving DecidableEq, Repr

/-- The initial beam state (layers.py line 218): empty prediction, score
and normalized score `1.0`, last output the start-of-sequence index `2`. -/
def initState (hidden : Nat) : BeamState :=
  { prediction := "", score := 1, normalizedScore := 1, lastOutput := 2, hidden := hidden }

/-- One candidate expansion of `predict_beam` (layers.py lines 232-244):
given the parent state `st`, the successor hidden state `h2`, the candidate
token index `ix` and its softmax probability `p`, build the new `State`.
For the end-of-sequence index `1` the prediction is left unchanged and the
normalized score carries the length-hint bias; otherwise the token string
is appended. -/
def stepCandidate (M : DecoderModel) (surfaceLen : Nat) (st : BeamState)
    (h2 : Nat) (ix : Nat) (p : ℚ) : BeamState :=
  let score := st.score * p
  if ix = 1 then
    let predictionLen : ℚ := (st.prediction.length : ℚ) + 1
    { prediction := st.prediction
      score := score
      normalizedScore := score / ((5 + predictionLen) / 6) * ((surfaceLen : ℚ) / predictionLen)
      lastOutput := ix
      hidden := h2 }
  else
    let pred := st.prediction ++ M.index2token ix
    { prediction := pred
      score := score
      normalizedScore := score / ((5 + (pred.length : ℚ)) / 6)
      lastOutput := ix
      hidden := h2 }

/-- Expansion of one popped state in the inner `while` of `predict_beam`
(layers.py lines 224-249): states whose prediction already has length
`surface_len + 2` or more are dropped (`continue`); otherwise the softmax
scores are ranked, the top `beamSize` candidates are built, and they are
split into the still-active ones (first component) and the completed,
end-of-sequence ones (second component), in candidate order. -/
def expandState (M : DecoderModel) (beamSize surfaceLen : Nat) (st : BeamState) :
    List BeamState × List BeamState :=
  if surfaceLen + 2 ≤ st.prediction.length then ([], [])
  else
    let probs := softmaxList M (M.rawScores st.hidden st.lastOutput)
    let idxs := topkIdx beamSize probs
    let h2 := M.nextHidden st.hidden st.lastOutput
    let cands := idxs.map (fun ix => stepCandidate M surfaceLen st h2 ix (probs.getD ix 0))
    (cands.filter (fun c => ! (c.lastOutput == 1)), cands.filter (fun c => c.lastOutput == 1))

/-- One full pass of the inner `while states:` loop: every queued state is
popped and expanded, the new active states and the newly completed states
being appended in processing order. -/
def beamGeneration (M : DecoderModel) (beamSize surfaceLen : Nat)
    (states : List BeamState) : List BeamState × List BeamState :=
  states.foldl
    (fun acc st =>
      let e := expandState M beamSize surfaceLen st
      (acc.1 ++ e.1, acc.2 ++ e.2))
    ([], [])

/-- Stable insertion into a list sorted by decreasing `normalizedScore`:
the inserted element goes after every element with an equal or larger
score, matching Python's stable `sorted(..., reverse=True)`. -/
def insertDesc (x : BeamState) : List BeamState → List BeamState
  | [] => [x]
  | y :: ys => if y.normalizedScore < x.normalizedScore then x :: y :: ys else y :: insertDesc x ys

/-- Model of `sorted(l, key=attrgetter('normalized_score'), reverse=True)`. -/
def sortDesc (l : List BeamState) : List BeamState :=
  l.foldr insertDesc []

/-- The outer `while states:` loop of `predict_beam` (layers.py lines
221-251), indexed by fuel (one unit per iteration).  Returns the pair
(active states, completed states) after the given number of iterations;
when the active list empties the remaining fuel is irrelevant. -/
def beamLoop (M : DecoderModel) (beamSize surfaceLen : Nat) :
    Nat → List BeamState → List BeamState → List BeamState × List BeamState
  | 0, states, completed => (states, completed)
  | fuel + 1, states, completed =>
    if states.isEmpty then ([], completed)
    else
      let g := beamGeneration M beamSize surfaceLen states
      beamLoop M beamSize surfaceLen fuel ((sortDesc g.1).take beamSize) (completed ++ g.2)

/-- `DecoderRNN.predict_beam` (layers.py lines 193-252).  `maxLen` is the
`max_len` parameter of the Python signature: it occurs in the signature but
nowhere in the body, and is likewise unused here.  The final
`sorted(completed_states, ...)[0].prediction` raises `IndexError` on an
empty completed list; that exception is rendered as `none`. -/
def predictBeam (M : DecoderModel) (initHidden surfaceLen beamSize maxLen fuel : Nat) :
    Option String :=
  let r := beamLoop M beamSize surfaceLen fuel [initState initHidden] []
  (sortDesc r.2).head?.map (fun st => st.prediction)

/-- The greedy loop of `DecoderRNN.predict` (layers.py lines 177-189),
with the accumulator of appended token strings made explicit.  Each step
takes the arg-max of the raw classifier scores; end-of-sequence (`1`)
breaks, and only indices strictly above `2` are appended. -/
def greedyLoop (M : DecoderModel) : Nat → Nat → Nat → List String → List String
  | 0, _, _, acc => acc
  | fuel + 1, h, t, acc =>
    let u := firstIdx (topkIdx 1 (M.rawScores h t))
    if u = 1 then acc
    else if 2 < u then greedyLoop M fuel (M.nextHidden h t) u (acc ++ [M.index2token u])
    else greedyLoop M fuel (M.nextHidden h t) u acc

/-- `DecoderRNN.predict` (layers.py lines 146-191), prediction component:
greedy decoding from the start-of-sequence token `2` for at most `maxLen`
steps. -/
def predictGreedy (M : DecoderModel) (initHidden maxLen : Nat) : List String :=
  greedyLoop M maxLen initHidden 2 []

/-- The trace of raw arg-max token indices emitted by the greedy loop, with
a flag recording whether the loop stopped on end-of-sequence (`true`) or by
running out of steps (`false`).  Every emitted index is recorded, including
the special indices `0` and `2` that `predict` feeds back but does not
append. -/
def greedyTrace (M : DecoderModel) : Nat → Nat → Nat → List Nat × Bool
  | 0, _, _ => ([], false)
  | fuel + 1, h, t =>
    let u := firstIdx (topkIdx 1 (M.rawScores h t))
    if u = 1 then ([], true)
    else (u :: (greedyTrace M fuel (M.nextHidden h t) u).1,
          (greedyTrace M fuel (M.nextHidden h t) u).2)

/-- Subword positions aligned to word `w` (layers.py line 71):
`[i for i, w_id in enumerate(word_ids) if w_id == word_idx]`. -/
def subwordIndices (wordIds : List (Option Nat)) (w : Nat) : List Nat :=
  (List.range wordIds.length).filter (fun i => wordIds.getD i none == some w)

/-- Componentwise mean of a list of vectors: `tensor.mean(dim=0)` on the
stacked subword embeddings (layers.py line 74). -/
def meanVec (vs : List (List ℚ)) : List ℚ :=
  match vs with
  | [] => []
  | v :: rest => (rest.foldl (fun a b => a.zipWith (· + ·) b) v).map
      (fun q => q / ((rest.length + 1 : ℕ) : ℚ))

/-- The context vector the encoder computes for word `w`: the mean of the
embeddings of the subwords aligned to `w`. -/
def wordContextVec (lastHidden : List (List ℚ)) (wordIds : List (Option Nat)) (w : Nat) :
    List ℚ :=
  meanVec ((subwordIndices wordIds w).map (fun i => lastHidden.getD i []))

/-- The context-embedding loop of `EncoderRNN.forward` (layers.py lines
68-75): iterate over word positions `0 .. n-1`; a word with at least one
aligned subword contributes the mean of its subword embeddings, a word
with none is skipped (`if subword_indices:`). -/
def xlmrEmbeddings (lastHidden : List (List ℚ)) (wordIds : List (Option Nat)) (n : Nat) :
    List (List ℚ) :=
  (List.range n).foldl
    (fun acc w =>
      if (subwordIndices wordIds w).isEmpty then acc
      else acc ++ [wordContextVec lastHidden wordIds w])
    []

/-- The context stream of `EncoderRNN.forward` including the
`torch.stack(xlmr_embeddings)` call (layers.py line 76), which raises on an
empty list; the exception is rendered as `none`. -/
def encoderContext (lastHidden : List (List ℚ)) (wordIds : List (Option Nat)) (n : Nat) :
    Option (List (List ℚ)) :=
  let e := xlmrEmbeddings lastHidden wordIds n
  if e.isEmpty then none else some e

/-- The per-word (word_vector, context_vector) pairs produced by
`EncoderRNN.forward`: the char-GRU word embeddings zipped positionally with
the context embeddings. -/
def encoderPairs (wordVecs : List (List ℚ)) (lastHidden : List (List ℚ))
    (wordIds : List (Option Nat)) (n : Nat) : List (List ℚ × List ℚ) :=
  wordVecs.zip (xlmrEmbeddings lastHidden wordIds n)

/-- The lemma-reconstruction post-processing of `TransformerRNN.predict`
(layers.py lines 355-356): for each surface word, its predicted label list
is truncated to the surface length and handed to `inverse_transformation`
(a `data_utils` collaborator, abstracted as the parameter `inv`). -/
def transformerPredict (inv : String → List String → String)
    (surfaces : List String) (preds : List (List String)) : List String :=
  (surfaces.zip preds).map (fun sp => inv sp.1 (sp.2.take sp.1.length))

/-- Modelled from the spec: the length-normalized score that the claim (and
spec section 4.2 step 2) assigns to an end-of-sequence candidate, with
`effective_length` equal to the EXISTING (unextended) sequence length. -/
def specScoreEos (score existingLen hint : ℚ) : ℚ :=
  score / ((5 + existingLen) / 6) * (hint / existingLen)

/-- A concrete positive strictly monotone stand-in for the exponential,
used to instantiate witness models. -/
def expQ (q : ℚ) : ℚ :=
  if q < 0 then 1 / (1 - q) else q + 1

/-- Right fold concatenation of a list of strings, used to compare the
string built by beam search with the token list built by greedy search. -/
def joinStr (l : List String) : String :=
  l.foldr (fun a b => a ++ b) ""

theorem expQ_pos (q : ℚ) : 0 < expQ q := by
  unfold expQ
  split
  · next h => exact div_pos one_pos (by linarith)
  · next h => push_neg at h; linarith

theorem expQ_mono (a b : ℚ) (h : a < b) : expQ a < expQ b := by
  unfold expQ
  by_cases ha : a < 0 <;> by_cases hb : b < 0 <;> simp only [ha, hb, if_true, if_false]
  · exact one_div_lt_one_div_of_lt (by linarith) (by linarith)
  · have h1 : (1 : ℚ) < 1 - a := by linarith
    have h2 : 1 / (1 - a) < 1 := (div_lt_one (by linarith)).2 h1
    push_neg at hb
    linarith
  · exact absurd (lt_trans h hb) (by push_neg at ha; exact not_lt.2 ha)
  · linarith

theorem length_softmaxList (M : DecoderModel) (s : List ℚ) :
    (softmaxList M s).length = s.length := by
  simp [softmaxList]

theorem sum_expF_pos (M : DecoderModel) (s : List ℚ) (hs : s ≠ []) :
    0 < (s.map M.expF).sum := by
  apply List.sum_pos
  · intro x hx
    obtain ⟨y, _, rfl⟩ := List.mem_map.1 hx
    exact M.expPos y
  · simpa using hs

theorem expF_lt_iff (M : DecoderModel) {a b : ℚ} : M.expF a < M.expF b ↔ a < b := by
  constructor
  · intro h
    by_contra hc
    push_neg at hc
    rcases lt_or_eq_of_le hc with h1 | h1
    · exact absurd (M.expMono b a h1) (not_lt.2 (le_of_lt h))
    · subst h1; exact lt_irrefl _ h
  · exact M.expMono a b

theorem softmaxList_getD (M : DecoderModel) (s : List ℚ) (i : Nat) (hi : i < s.length) :
    (softmaxList M s).getD i 0 = M.expF (s.getD i 0) / (s.map M.expF).sum := by
  rw [softmaxList, List.getD_eq_getElem _ _ (by simpa using hi),
      List.getD_eq_getElem _ _ hi, List.getElem_map]

theorem softmax_lt_iff (M : DecoderModel) (s : List ℚ) (i j : Nat)
    (hi : i < s.length) (hj : j < s.length) (hs : s ≠ []) :
    ((softmaxList M s).getD i 0 < (softmaxList M s).getD j 0) ↔ (s.getD i 0 < s.getD j 0) := by
  rw [softmaxList_getD M s i hi, softmaxList_getD M s j hj,
      div_lt_div_iff_of_pos_right (sum_expF_pos M s hs), expF_lt_iff]

theorem fold_pick_congr (M : DecoderModel) (s : List ℚ) (hs : s ≠ []) :
    ∀ (idxs : List Nat) (b : Nat), b < s.length → (∀ i ∈ idxs, i < s.length) →
      idxs.foldl (fun b i =>
          if (softmaxList M s).getD b 0 < (softmaxList M s).getD i 0 then i else b) b
        = idxs.foldl (fun b i => if s.getD b 0 < s.getD i 0 then i else b) b := by
  intro idxs
  induction idxs with
  | nil => intro b _ _; rfl
  | cons i rest ih =>
    intro b hb hidx
    have hi : i < s.length := hidx i (by simp)
    simp only [List.foldl_cons]
    by_cases hc : s.getD b 0 < s.getD i 0
    · rw [if_pos hc, if_pos ((softmax_lt_iff M s b i hb hi hs).2 hc)]
      exact ih i hi (fun j hj => hidx j (List.mem_cons_of_mem _ hj))
    · rw [if_neg hc, if_neg (fun h => hc ((softmax_lt_iff M s b i hb hi hs).1 h))]
      exact ih b hb (fun j hj => hidx j (List.mem_cons_of_mem _ hj))

theorem selectMax_softmax (M : DecoderModel) (s : List ℚ) (taken : List Nat) :
    selectMax (softmaxList M s) taken = selectMax s taken := by
  rcases hs : s with _ | ⟨a, t⟩
  · rfl
  · rw [← hs]
    have hsne : s ≠ [] := by rw [hs]; simp
    unfold selectMax
    rw [length_softmaxList]
    rcases hf : (List.range s.length).filter (fun i => ! taken.contains i) with _ | ⟨c, cs⟩
    · rfl
    · have hmem : ∀ i ∈ c :: cs, i < s.length := by
        intro i hi
        have hin : i ∈ (List.range s.length).filter (fun i => ! taken.contains i) := by
          rw [hf]; exact hi
        exact List.mem_range.1 (List.mem_of_mem_filter hin)
      simp only [Option.some.injEq]
      exact fold_pick_congr M s hsne cs c (hmem c (by simp))
        (fun i hi => hmem i (List.mem_cons_of_mem _ hi))

theorem topkAux_softmax (M : DecoderModel) (s : List ℚ) :
    ∀ (k : Nat) (taken : List Nat), topkAux (softmaxList M s) k taken = topkAux s k taken := by
  intro k
  induction k with
  | zero => intro taken; rfl
  | succ k ih =>
    intro taken
    unfold topkAux
    rw [selectMax_softmax]
    rcases selectMax s taken with _ | i
    · rfl
    · exact ih (taken ++ [i])

theorem topkIdx_softmax (M : DecoderModel) (k : Nat) (s : List ℚ) :
    topkIdx k (softmaxList M s) = topkIdx k s :=
  topkAux_softmax M s k []

theorem topkIdx_one_shape (l : List ℚ) : topkIdx 1 l = [] ∨ ∃ v, topkIdx 1 l = [v] := by
  unfold topkIdx topkAux
  rcases selectMax l [] with _ | i
  · exact Or.inl rfl
  · exact Or.inr ⟨i, rfl⟩

theorem topkIdx_one_of_headD (l : List ℚ) (u : Nat)
    (hu : firstIdx (topkIdx 1 l) = u) (hu0 : u ≠ 0) : topkIdx 1 l = [u] := by
  rcases topkIdx_one_shape l with h | ⟨v, h⟩
  · rw [h] at hu; exact absurd hu.symm hu0
  · rw [h] at hu ⊢
    simp only [firstIdx, List.headD_cons] at hu
    rw [hu]

theorem mem_insertDesc {x a : BeamState} {l : List BeamState} :
    x ∈ insertDesc a l ↔ x = a ∨ x ∈ l := by
  induction l with
  | nil => simp [insertDesc]
  | cons y ys ih =>
    unfold insertDesc
    split
    · simp
    · simp only [List.mem_cons, ih]
      tauto

theorem mem_sortDesc {x : BeamState} {l : List BeamState} : x ∈ sortDesc l ↔ x ∈ l := by
  induction l with
  | nil => simp [sortDesc]
  | cons y ys ih =>
    unfold sortDesc at ih ⊢
    rw [List.foldr_cons, mem_insertDesc, ih, List.mem_cons]

theorem length_insertDesc (a : BeamState) (l : List BeamState) :
    (insertDesc a l).length = l.length + 1 := by
  induction l with
  | nil => rfl
  | cons y ys ih =>
    unfold insertDesc
    split
    · simp
    · simp [ih]

theorem length_sortDesc (l : List BeamState) : (sortDesc l).length = l.length := by
  induction l with
  | nil => rfl
  | cons y ys ih =>
    unfold sortDesc at ih ⊢
    rw [List.foldr_cons, length_insertDesc, ih, List.length_cons]

theorem sortDesc_eq_nil_iff (l : List BeamState) : sortDesc l = [] ↔ l = [] := by
  constructor
  · intro h
    have := length_sortDesc l
    rw [h] at this
    exact List.length_eq_zero.1 this.symm
  · intro h; rw [h]; rfl

theorem sortDesc_singleton (a : BeamState) : sortDesc [a] = [a] := rfl

theorem pair_foldl (g : BeamState → List BeamState × List BeamState) :
    ∀ (l : List BeamState) (a b : List BeamState),
      l.foldl (fun acc st => (acc.1 ++ (g st).1, acc.2 ++ (g st).2)) (a, b)
        = (a ++ (l.map (fun st => (g st).1)).flatten, b ++ (l.map (fun st => (g st).2)).flatten) := by
  intro l
  induction l with
  | nil => intro a b; simp
  | cons s t ih =>
    intro a b
    simp only [List.foldl_cons, List.map_cons, List.flatten_cons]
    rw [ih]
    simp [List.append_assoc]

theorem beamGeneration_eq (M : DecoderModel) (bs sl : Nat) (states : List BeamState) :
    beamGeneration M bs sl states
      = ((states.map (fun st => (expandState M bs sl st).1)).flatten,
         (states.map (fun st => (expandState M bs sl st).2)).flatten) := by
  unfold beamGeneration
  rw [pair_foldl]
  simp

theorem stepCandidate_lastOutput (M : DecoderModel) (sl : Nat) (st : BeamState)
    (h2 ix : Nat) (p : ℚ) : (stepCandidate M sl st h2 ix p).lastOutput = ix := by
  unfold stepCandidate
  split <;> rfl

theorem expandState_active_mem (M : DecoderModel) (bs sl : Nat) (st x : BeamState)
    (hx : x ∈ (expandState M bs sl st).1) :
    st.prediction.length < sl + 2
      ∧ ∃ ix p, ix ≠ 1
          ∧ x = stepCandidate M sl st (M.nextHidden st.hidden st.lastOutput) ix p := by
  unfold expandState at hx
  split at hx
  · simp at hx
  · next hguard =>
    refine ⟨by omega, ?_⟩
    simp only [List.mem_filter, List.mem_map] at hx
    obtain ⟨⟨ix, _, rfl⟩, hne⟩ := hx
    rw [stepCandidate_lastOutput] at hne
    refine ⟨ix, _, ?_, rfl⟩
    intro h1
    rw [h1] at hne
    simp at hne

theorem expandState_completed_mem (M : DecoderModel) (bs sl : Nat) (st x : BeamState)
    (hx : x ∈ (expandState M bs sl st).2) :
    x.prediction = st.prediction ∧ st.prediction.length < sl + 2 := by
  unfold expandState at hx
  split at hx
  · simp at hx
  · next hguard =>
    refine ⟨?_, by omega⟩
    simp only [List.mem_filter, List.mem_map] at hx
    obtain ⟨⟨ix, _, rfl⟩, heq⟩ := hx
    rw [stepCandidate_lastOutput] at heq
    have hix : ix = 1 := by simpa using heq
    rw [hix]
    unfold stepCandidate
    rw [if_pos rfl]

theorem expandState_active_len (M : DecoderModel) (bs sl : Nat) (st x : BeamState)
    (htok : ∀ u, 1 ≤ (M.index2token u).length)
    (hx : x ∈ (expandState M bs sl st).1) :
    st.prediction.length + 1 ≤ x.prediction.length ∧ st.prediction.length < sl + 2 := by
  obtain ⟨hguard, ix, p, hne, rfl⟩ := expandState_active_mem M bs sl st x hx
  refine ⟨?_, hguard⟩
  unfold stepCandidate
  rw [if_neg hne]
  simp only [String.length_append]
  have := htok ix
  omega

theorem beamLoop_nil (M : DecoderModel) (bs sl : Nat) :
    ∀ (fuel : Nat) (c : List BeamState), beamLoop M bs sl fuel [] c = ([], c) := by
  intro fuel c
  cases fuel with
  | zero => rfl
  | succ f => simp [beamLoop]

theorem beamLoop_step (M : DecoderModel) (bs sl fuel : Nat) (s : BeamState)
    (t c : List BeamState) :
    beamLoop M bs sl (fuel + 1) (s :: t) c
      = beamLoop M bs sl fuel ((sortDesc (beamGeneration M bs sl (s :: t)).1).take bs)
          (c ++ (beamGeneration M bs sl (s :: t)).2) := by
  simp [beamLoop]

theorem beamLoop_cons_step (M : DecoderModel) (bs sl fuel : Nat) (st : BeamState)
    (c : List BeamState) :
    beamLoop M bs sl (fuel + 1) [st] c
      = beamLoop M bs sl fuel ((sortDesc (expandState M bs sl st).1).take bs)
          (c ++ (expandState M bs sl st).2) := by
  rw [beamLoop_step]
  rw [beamGeneration_eq]
  simp

theorem beamLoop_add (M : DecoderModel) (bs sl : Nat) :
    ∀ (a b : Nat) (states c : List BeamState),
      beamLoop M bs sl (b + a) states c
        = beamLoop M bs sl b (beamLoop M bs sl a states c).1 (beamLoop M bs sl a states c).2 := by
  intro a
  induction a with
  | zero => intro b states c; rfl
  | succ a ih =>
    intro b states c
    rcases states with _ | ⟨s, t⟩
    · rw [beamLoop_nil, beamLoop_nil]
      simp [beamLoop_nil]
    · show beamLoop M bs sl (b + a + 1) (s :: t) c = _
      rw [beamLoop_step, beamLoop_step, ih]

theorem mem_beamGeneration_active (M : DecoderModel) (bs sl : Nat)
    (states : List BeamState) (x : BeamState)
    (hx : x ∈ (beamGeneration M bs sl states).1) :
    ∃ st ∈ states, x ∈ (expandState M bs sl st).1 := by
  rw [beamGeneration_eq] at hx
  simp only [List.mem_flatten, List.mem_map] at hx
  obtain ⟨l, ⟨st, hst, rfl⟩, hxl⟩ := hx
  exact ⟨st, hst, hxl⟩

theorem mem_beamGeneration_completed (M : DecoderModel) (bs sl : Nat)
    (states : List BeamState) (x : BeamState)
    (hx : x ∈ (beamGeneration M bs sl states).2) :
    ∃ st ∈ states, x ∈ (expandState M bs sl st).2 := by
  rw [beamGeneration_eq] at hx
  simp only [List.mem_flatten, List.mem_map] at hx
  obtain ⟨l, ⟨st, hst, rfl⟩, hxl⟩ := hx
  exact ⟨st, hst, hxl⟩

theorem mem_next_active (M : DecoderModel) (bs sl : Nat) (states : List BeamState)
    (x : BeamState) (hx : x ∈ (sortDesc (beamGeneration M bs sl states).1).take bs) :
    ∃ st ∈ states, x ∈ (expandState M bs sl st).1 :=
  mem_beamGeneration_active M bs sl states x
    (mem_sortDesc.1 (List.mem_of_mem_take hx))

theorem beamLoop_completed_bound (M : DecoderModel) (bs sl : Nat) :
    ∀ (fuel : Nat) (states c : List BeamState),
      (∀ x ∈ c, x.prediction.length ≤ sl + 2) →
      ∀ x ∈ (beamLoop M bs sl fuel states c).2, x.prediction.length ≤ sl + 2 := by
  intro fuel
  induction fuel with
  | zero => intro states c hc x hx; exact hc x hx
  | succ fuel ih =>
    intro states c hc x hx
    rcases states with _ | ⟨s, t⟩
    · rw [beamLoop_nil] at hx
      exact hc x hx
    · rw [beamLoop_step] at hx
      refine ih _ _ ?_ x hx
      intro y hy
      rcases List.mem_append.1 hy with hy | hy
      · exact hc y hy
      · obtain ⟨st, _, hyst⟩ := mem_beamGeneration_completed M bs sl (s :: t) y hy
        obtain ⟨hpred, hlt⟩ := expandState_completed_mem M bs sl st y hyst
        rw [hpred]
        omega

theorem beamLoop_gen_len (M : DecoderModel) (bs sl : Nat)
    (htok : ∀ u, 1 ≤ (M.index2token u).length) :
    ∀ (fuel : Nat) (states c : List BeamState) (j : Nat),
      (∀ x ∈ states, j ≤ x.prediction.length) →
      ∀ x ∈ (beamLoop M bs sl fuel states c).1, j + fuel ≤ x.prediction.length := by
  intro fuel
  induction fuel with
  | zero => intro states c j hs x hx; simpa using hs x hx
  | succ fuel ih =>
    intro states c j hs x hx
    rcases states with _ | ⟨s, t⟩
    · rw [beamLoop_nil] at hx
      simp at hx
    · rw [beamLoop_step] at hx
      have hnext : ∀ y ∈ (sortDesc (beamGeneration M bs sl (s :: t)).1).take bs,
          j + 1 ≤ y.prediction.length := by
        intro y hy
        obtain ⟨st, hst, hyst⟩ := mem_next_active M bs sl (s :: t) y hy
        obtain ⟨hgrow, _⟩ := expandState_active_len M bs sl st y htok hyst
        have := hs st hst
        omega
      have := ih _ (c ++ (beamGeneration M bs sl (s :: t)).2) (j + 1) hnext x hx
      omega

theorem beamLoop_dies (M : DecoderModel) (bs sl : Nat)
    (htok : ∀ u, 1 ≤ (M.index2token u).length) :
    ∀ (m : Nat) (states c : List BeamState),
      (∀ x ∈ states, sl + 2 ≤ x.prediction.length + m) →
      (beamLoop M bs sl (m + 1) states c).1 = [] := by
  intro m
  induction m with
  | zero =>
    intro states c hs
    rcases states with _ | ⟨s, t⟩
    · rw [beamLoop_nil]
    · rw [beamLoop_step]
      have hempty : (beamGeneration M bs sl (s :: t)).1 = [] := by
        rw [List.eq_nil_iff_forall_not_mem]
        intro x hx
        obtain ⟨st, hst, hxst⟩ := mem_beamGeneration_active M bs sl (s :: t) x hx
        obtain ⟨hlt, _⟩ := expandState_active_mem M bs sl st x hxst
        have := hs st hst
        omega
      rw [hempty]
      simp [sortDesc, beamLoop]
  | succ m ih =>
    intro states c hs
    rcases states with _ | ⟨s, t⟩
    · rw [beamLoop_nil]
    · rw [beamLoop_step]
      apply ih
      intro y hy
      obtain ⟨st, hst, hyst⟩ := mem_next_active M bs sl (s :: t) y hy
      obtain ⟨hgrow, _⟩ := expandState_active_len M bs sl st y htok hyst
      have := hs st hst
      omega

theorem greedyLoop_eq (M : DecoderModel) :
    ∀ (fuel h t : Nat) (acc : List String),
      greedyLoop M fuel h t acc
        = acc ++ ((greedyTrace M fuel h t).1.filter (fun u => decide (2 < u))).map M.index2token := by
  intro fuel
  induction fuel with
  | zero => intro h t acc; simp [greedyLoop, greedyTrace]
  | succ fuel ih =>
    intro h t acc
    simp only [greedyLoop, greedyTrace]
    by_cases hu : firstIdx (topkIdx 1 (M.rawScores h t)) = 1
    · rw [if_pos hu, if_pos hu]
      simp
    · rw [if_neg hu, if_neg hu]
      by_cases h2 : 2 < firstIdx (topkIdx 1 (M.rawScores h t))
      · rw [if_pos h2, ih]
        simp [h2, List.append_assoc]
      · rw [if_neg h2, ih]
        simp [h2]

theorem greedyTrace_stop (M : DecoderModel) (fuel h t : Nat)
    (hu : firstIdx (topkIdx 1 (M.rawScores h t)) = 1) :
    greedyTrace M (fuel + 1) h t = ([], true) := by
  simp [greedyTrace, hu]

theorem greedyTrace_go (M : DecoderModel) (fuel h t u : Nat)
    (hu : firstIdx (topkIdx 1 (M.rawScores h t)) = u) (hne : u ≠ 1) :
    greedyTrace M (fuel + 1) h t
      = (u :: (greedyTrace M fuel (M.nextHidden h t) u).1,
         (greedyTrace M fuel (M.nextHidden h t) u).2) := by
  simp [greedyTrace, hu, hne]

/-- With `beam_size = 1` and the guard passed, an expansion produces exactly
one candidate: the arg-max token of the raw scores (softmax preserves the
arg-max).  It lands in the completed component when it is end-of-sequence
and in the active component otherwise. -/
theorem expandState_top1 (M : DecoderModel) (sl : Nat) (st : BeamState)
    (hguard : st.prediction.length < sl + 2) (u : Nat)
    (hu : firstIdx (topkIdx 1 (M.rawScores st.hidden st.lastOutput)) = u) (hu0 : u ≠ 0) :
    expandState M 1 sl st
      = (let p := (softmaxList M (M.rawScores st.hidden st.lastOutput)).getD u 0
         let cand := stepCandidate M sl st (M.nextHidden st.hidden st.lastOutput) u p
         if u = 1 then ([], [cand]) else ([cand], [])) := by
  have htop : topkIdx 1 (softmaxList M (M.rawScores st.hidden st.lastOutput)) = [u] := by
    rw [topkIdx_softmax]
    exact topkIdx_one_of_headD _ u hu hu0
  simp only [expandState]
  rw [if_neg (by omega), htop]
  simp only [List.map_cons, List.map_nil]
  by_cases hu1 : u = 1
  · rw [if_pos hu1]
    simp [List.filter, stepCandidate_lastOutput, hu1]
  · rw [if_neg hu1]
    have hb : (u == 1) = false := by simpa using hu1
    simp [List.filter, stepCandidate_lastOutput, hb]

theorem stepCandidate_eos (M : DecoderModel) (sl : Nat) (st : BeamState) (h2 : Nat) (p : ℚ) :
    stepCandidate M sl st h2 1 p
      = ⟨st.prediction, st.score * p,
          st.score * p / ((5 + ((st.prediction.length : ℚ) + 1)) / 6)
            * ((sl : ℚ) / ((st.prediction.length : ℚ) + 1)), 1, h2⟩ := by
  simp [stepCandidate]

theorem stepCandidate_go (M : DecoderModel) (sl : Nat) (st : BeamState) (h2 ix : Nat)
    (p : ℚ) (hne : ix ≠ 1) :
    stepCandidate M sl st h2 ix p
      = ⟨st.prediction ++ M.index2token ix, st.score * p,
          st.score * p / ((5 + (((st.prediction ++ M.index2token ix).length : ℚ))) / 6),
          ix, h2⟩ := by
  simp only [stepCandidate]
  rw [if_neg hne]

theorem expandState_top1_eos (M : DecoderModel) (sl : Nat) (st : BeamState)
    (hguard : st.prediction.length < sl + 2)
    (hu : firstIdx (topkIdx 1 (M.rawScores st.hidden st.lastOutput)) = 1) :
    expandState M 1 sl st
      = ([], [stepCandidate M sl st (M.nextHidden st.hidden st.lastOutput) 1
          ((softmaxList M (M.rawScores st.hidden st.lastOutput)).getD 1 0)]) := by
  rw [expandState_top1 M sl st hguard 1 hu one_ne_zero]
  simp

theorem expandState_top1_go (M : DecoderModel) (sl : Nat) (st : BeamState) (u : Nat)
    (hguard : st.prediction.length < sl + 2)
    (hu : firstIdx (topkIdx 1 (M.rawScores st.hidden st.lastOutput)) = u)
    (hu0 : u ≠ 0) (hu1 : u ≠ 1) :
    expandState M 1 sl st
      = ([stepCandidate M sl st (M.nextHidden st.hidden st.lastOutput) u
          ((softmaxList M (M.rawScores st.hidden st.lastOutput)).getD u 0)], []) := by
  rw [expandState_top1 M sl st hguard u hu hu0]
  simp [hu1]

theorem joinStr_nil : joinStr [] = "" := rfl

theorem joinStr_cons (a : String) (l : List String) : joinStr (a :: l) = a ++ joinStr l := rfl

/-- Simulation of a greedy run by a width-1 beam: if the greedy trace from
recurrent state `h` on last token `t` stops on end-of-sequence after
emitting the token indices `ts`, none of which is a special index, and the
beam state `⟨P, sc, ns, t, h⟩` has room to grow by the corresponding token
strings under the `surface_len + 2` bound, then the width-1 beam loop from
that single state completes exactly one state, whose prediction extends `P`
by the concatenation of the emitted token strings. -/
theorem beamSim (M : DecoderModel) (sl : Nat) :
    ∀ (fg : Nat) (h t : Nat) (ts : List Nat) (P : String) (sc ns : ℚ) (fuel : Nat)
      (c : List BeamState),
      greedyTrace M fg h t = (ts, true) →
      (∀ u ∈ ts, 2 < u) →
      P.length + (joinStr (ts.map M.index2token)).length + 1 ≤ sl + 2 →
      ts.length + 1 ≤ fuel →
      ∃ E : BeamState,
        beamLoop M 1 sl fuel [⟨P, sc, ns, t, h⟩] c = ([], c ++ [E])
        ∧ E.prediction = P ++ joinStr (ts.map M.index2token) := by
  intro fg
  induction fg with
  | zero =>
    intro h t ts P sc ns fuel c htr _ _ _
    exact absurd (congrArg Prod.snd htr) (by simp [greedyTrace])
  | succ fg ih =>
    intro h t ts P sc ns fuel c htr hts hlen hfuel
    by_cases hu1 : firstIdx (topkIdx 1 (M.rawScores h t)) = 1
    · rw [greedyTrace_stop M fg h t hu1] at htr
      have hts0 : ts = [] := ((Prod.ext_iff.1 htr).1).symm
      subst hts0
      rcases fuel with _ | f
      · omega
      · have hguard : (P : String).length < sl + 2 := by
          simp only [List.map_nil, joinStr_nil, String.length_empty] at hlen
          omega
        rw [beamLoop_cons_step,
            expandState_top1_eos M sl ⟨P, sc, ns, t, h⟩ hguard hu1]
        rw [show (sortDesc []).take 1 = [] from rfl, beamLoop_nil]
        refine ⟨_, rfl, ?_⟩
        rw [stepCandidate_eos]
        simp [joinStr_nil]
    · rw [greedyTrace_go M fg h t _ rfl hu1] at htr
      have hts0 : firstIdx (topkIdx 1 (M.rawScores h t))
          :: (greedyTrace M fg (M.nextHidden h t) (firstIdx (topkIdx 1 (M.rawScores h t)))).1
          = ts := (Prod.ext_iff.1 htr).1
      have htr2 : (greedyTrace M fg (M.nextHidden h t)
          (firstIdx (topkIdx 1 (M.rawScores h t)))).2 = true := (Prod.ext_iff.1 htr).2
      subst hts0
      have htr' : greedyTrace M fg (M.nextHidden h t) (firstIdx (topkIdx 1 (M.rawScores h t)))
          = ((greedyTrace M fg (M.nextHidden h t) (firstIdx (topkIdx 1 (M.rawScores h t)))).1,
             true) := Prod.ext rfl htr2
      have hu2 : 2 < firstIdx (topkIdx 1 (M.rawScores h t)) := hts _ (by simp)
      have hu0 : firstIdx (topkIdx 1 (M.rawScores h t)) ≠ 0 := by omega
      rcases fuel with _ | f
      · simp at hfuel
      · have hlen1 : P.length
            + ((M.index2token (firstIdx (topkIdx 1 (M.rawScores h t)))).length
              + (joinStr ((greedyTrace M fg (M.nextHidden h t)
                  (firstIdx (topkIdx 1 (M.rawScores h t)))).1.map M.index2token)).length)
            + 1 ≤ sl + 2 := by
          simpa [joinStr_cons] using hlen
        have hguard : (P : String).length < sl + 2 := by omega
        rw [beamLoop_cons_step,
            expandState_top1_go M sl ⟨P, sc, ns, t, h⟩ _ hguard rfl hu0 hu1]
        rw [show ∀ x : BeamState, (sortDesc [x]).take 1 = [x] from fun x => rfl,
            List.append_nil]
        rw [stepCandidate_go M sl ⟨P, sc, ns, t, h⟩ _ _ _ hu1]
        obtain ⟨E, hE1, hE2⟩ := ih (M.nextHidden h t) (firstIdx (topkIdx 1 (M.rawScores h t)))
          ((greedyTrace M fg (M.nextHidden h t) (firstIdx (topkIdx 1 (M.rawScores h t)))).1)
          (P ++ M.index2token (firstIdx (topkIdx 1 (M.rawScores h t))))
          _ _ f c htr'
          (fun u hu => hts u (List.mem_cons_of_mem _ hu))
          (by rw [String.length_append]; omega)
          (by simp at hfuel ⊢; omega)
        refine ⟨E, hE1, ?_⟩
        rw [hE2, List.map_cons, joinStr_cons, String.append_assoc]

theorem foldl_skip_filterMap {α β : Type} (c : α → Bool) (f : α → β) :
    ∀ (l : List α) (acc : List β),
      l.foldl (fun a w => if c w then a else a ++ [f w]) acc
        = acc ++ l.filterMap (fun w => if c w then none else some (f w)) := by
  intro l
  induction l with
  | nil => intro acc; simp
  | cons x xs ih =>
    intro acc
    by_cases hc : c x
    · simp [hc, ih]
    · simp [hc, ih]

theorem xlmrEmbeddings_eq (lh : List (List ℚ)) (wi : List (Option Nat)) (n : Nat) :
    xlmrEmbeddings lh wi n
      = (List.range n).filterMap
          (fun w => if (subwordIndices wi w).isEmpty then none
                    else some (wordContextVec lh wi w)) := by
  unfold xlmrEmbeddings
  rw [foldl_skip_filterMap]
  simp

theorem filterMap_all_some {α β : Type} (f : α → Option β) (g : α → β) :
    ∀ l : List α, (∀ w ∈ l, f w = some (g w)) → l.filterMap f = l.map g := by
  intro l
  induction l with
  | nil => intro _; rfl
  | cons x xs ih =>
    intro hl
    rw [List.map_cons, List.filterMap_cons, hl x (by simp),
        ih (fun w hw => hl w (List.mem_cons_of_mem _ hw))]

theorem xlmrEmbeddings_total (lh : List (List ℚ)) (wi : List (Option Nat)) (n : Nat)
    (htotal : ∀ w, w < n → (subwordIndices wi w).isEmpty = false) :
    xlmrEmbeddings lh wi n = (List.range n).map (fun w => wordContextVec lh wi w) := by
  rw [xlmrEmbeddings_eq]
  apply filterMap_all_some
  intro w hw
  rw [htotal w (List.mem_range.1 hw)]
  rfl

theorem xlmrEmbeddings_eq_nil_iff (lh : List (List ℚ)) (wi : List (Option Nat)) (n : Nat) :
    xlmrEmbeddings lh wi n = [] ↔ ∀ w, w < n → (subwordIndices wi w).isEmpty = true := by
  rw [xlmrEmbeddings_eq, List.filterMap_eq_nil_iff]
  constructor
  · intro hf w hw
    have hfw := hf w (List.mem_range.2 hw)
    by_cases hc : (subwordIndices wi w).isEmpty
    · exact hc
    · rw [if_neg hc] at hfw
      simp at hfw
  · intro hall w hw
    rw [hall w (List.mem_range.1 hw)]
    rfl

/-- Concrete model whose every step ranks end-of-sequence (index 1) first. -/
def MdlEos : DecoderModel where
  index2token := fun _ => "a"
  rawScores := fun _ _ => [0, 3]
  nextHidden := fun _ _ => 0
  expF := expQ
  expPos := expQ_pos
  expMono := expQ_mono

/-- Concrete model whose first arg-max is the padding index `0` (with token
string "P") and whose second arg-max is end-of-sequence. -/
def MdlPad : DecoderModel where
  index2token := fun u => if u == 0 then "P" else "x"
  rawScores := fun _ t => if t == 2 then [3, 0, 0, 0] else [0, 3, 0, 0]
  nextHidden := fun _ _ => 0
  expF := expQ
  expPos := expQ_pos
  expMono := expQ_mono

/-- Concrete model that emits the ordinary token index `3` (string "a")
once and then end-of-sequence. -/
def MdlTok : DecoderModel where
  index2token := fun u => if u == 3 then "a" else "x"
  rawScores := fun _ t => if t == 2 then [0, 0, 0, 3] else [0, 3, 0, 0]
  nextHidden := fun _ _ => 0
  expF := expQ
  expPos := expQ_pos
  expMono := expQ_mono

/-- Concrete model whose vocabulary maps every index to the empty string
and which always prefers the ordinary token index `3`: beam states never
grow and never complete. -/
def MdlLoop : DecoderModel where
  index2token := fun _ => ""
  rawScores := fun _ _ => [0, 0, 0, 3]
  nextHidden := fun _ _ => 0
  expF := expQ
  expPos := expQ_pos
  expMono := expQ_mono

/-- Claim C1, counterexample: with a subword alignment in which word `0`
of a two-word sentence has no aligned subword, `EncoderRNN.forward`
produces fewer than `len(sentence)` embedding pairs (the word is silently
dropped), so the claim as stated — exactly one pair per input word
regardless of the tokenization — is false. -/
theorem c1_counterexample :
    (encoderPairs [[5], [6]] [[1]] [some 1] 2).length ≠ 2 := by
  decide

/-- Claim C1 (amended): provided every word of the sentence has at least
one aligned subword token, `EncoderRNN.forward` produces exactly
`len(sentence)` embedding pairs, and the pair at word position `w` is the
`w`-th char-GRU word vector paired with the mean of the subword embeddings
aligned to word `w` — resolved purely through the word-alignment map, so
in input word order regardless of subword order. -/
theorem c1_encoder_pairs_aligned (wordVecs lh : List (List ℚ)) (wi : List (Option Nat))
    (n : Nat)
    (htotal : ∀ w, w < n → (subwordIndices wi w).isEmpty = false)
    (hwv : wordVecs.length = n) :
    (encoderPairs wordVecs lh wi n).length = n
    ∧ ∀ w, w < n → (encoderPairs wordVecs lh wi n).getD w ([], [])
        = (wordVecs.getD w [], wordContextVec lh wi w) := by
  have hx : xlmrEmbeddings lh wi n = (List.range n).map (fun w => wordContextVec lh wi w) :=
    xlmrEmbeddings_total lh wi n htotal
  have hxlen : (xlmrEmbeddings lh wi n).length = n := by
    rw [hx]
    simp
  have hplen : (encoderPairs wordVecs lh wi n).length = n := by
    unfold encoderPairs
    rw [List.length_zip, hwv, hxlen]
    exact Nat.min_self n
  refine ⟨hplen, ?_⟩
  intro w hw
  have hw1 : w < wordVecs.length := by omega
  have hw2 : w < (xlmrEmbeddings lh wi n).length := by omega
  have hwp : w < (encoderPairs wordVecs lh wi n).length := by omega
  rw [List.getD_eq_getElem _ _ hwp]
  unfold encoderPairs at hwp ⊢
  rw [List.getElem_zip]
  rw [List.getD_eq_getElem _ _ hw1]
  have : (xlmrEmbeddings lh wi n)[w] = wordContextVec lh wi w := by
    simp [hx]
  simp only [this]

/-- Claim C1, witness: a two-word sentence with a total alignment gives
exactly two pairs, the second being word vector `[6]` with word `1`'s mean
context vector. -/
theorem c1_witness :
    (encoderPairs [[5], [6]] [[1], [2]] [some 0, some 1] 2).length = 2
    ∧ (encoderPairs [[5], [6]] [[1], [2]] [some 0, some 1] 2).getD 1 ([], [])
        = ([[5], [6]].getD 1 [], wordContextVec [[1], [2]] [some 0, some 1] 1) :=
  ⟨(c1_encoder_pairs_aligned [[5], [6]] [[1], [2]] [some 0, some 1] 2
      (by decide) (by decide)).1,
   (c1_encoder_pairs_aligned [[5], [6]] [[1], [2]] [some 0, some 1] 2
      (by decide) (by decide)).2 1 (by decide)⟩

/-- Claim C7, counterexample: word `0` of a two-word sentence has zero
aligned subword tokens, yet `EncoderRNN.forward` raises no error — it
silently omits the word (`if subword_indices:` skips it) and returns the
remaining context vectors, so the claimed hard error does not happen. -/
theorem c7_counterexample :
    (subwordIndices [some 1] 0).isEmpty = true
    ∧ encoderContext [[1]] [some 1] 2 ≠ none := by
  decide

/-- Claim C7 (amended): a word with zero aligned subwords is silently
dropped from the context embeddings rather than raising; the only error
(`torch.stack` on an empty list, modelled as `none`) occurs exactly when
EVERY word of the sentence has zero aligned subwords. -/
theorem c7_zero_aligned_skipped (lh : List (List ℚ)) (wi : List (Option Nat)) (n : Nat) :
    encoderContext lh wi n = none ↔ ∀ w, w < n → (subwordIndices wi w).isEmpty = true := by
  unfold encoderContext
  by_cases he : (xlmrEmbeddings lh wi n).isEmpty
  · rw [if_pos he]
    have hall := (xlmrEmbeddings_eq_nil_iff lh wi n).1 (List.isEmpty_iff.1 he)
    exact iff_of_true rfl hall
  · rw [if_neg he]
    constructor
    · intro hsome
      simp at hsome
    · intro hall
      have hnil := (xlmrEmbeddings_eq_nil_iff lh wi n).2 hall
      rw [hnil] at he
      exact absurd rfl he

/-- Claim C8: the lemma reconstruction of `TransformerRNN.predict` only
consumes the first `len(surface_word)` predicted edit labels of each word:
for any reconstruction function, replacing a word's label list by any
other list that agrees on the first `len(surface_word)` labels leaves the
returned lemmas unchanged. -/
theorem c8_labels_truncated (inv : String → List String → String) :
    ∀ (surfaces : List String) (p q : List (List String)),
      p.length = q.length →
      (∀ i, i < surfaces.length →
        (p.getD i []).take (surfaces.getD i "").length
          = (q.getD i []).take (surfaces.getD i "").length) →
      transformerPredict inv surfaces p = transformerPredict inv surfaces q := by
  intro surfaces
  induction surfaces with
  | nil => intro p q _ _; rfl
  | cons s ss ih =>
    intro p q hlen hagree
    rcases p with _ | ⟨a, p'⟩
    · rcases q with _ | ⟨b, q'⟩
      · rfl
      · simp at hlen
    · rcases q with _ | ⟨b, q'⟩
      · simp at hlen
      · unfold transformerPredict
        rw [List.zip_cons_cons, List.zip_cons_cons, List.map_cons, List.map_cons]
        have hhead := hagree 0 (by simp)
        simp only [List.getD_cons_zero] at hhead
        have htail := ih p' q' (by simpa using hlen)
          (fun i hi => by simpa using hagree (i + 1) (by simpa using hi))
        unfold transformerPredict at htail
        rw [htail]
        simp only [hhead]

/-- Claim C8, witness: two label lists for "ab" differing only in their
third label (beyond the surface length 2) give identical lemmas. -/
theorem c8_witness :
    transformerPredict (fun s ls => joinStr (s :: ls)) ["ab"] [["K", "K", "X"]]
      = transformerPredict (fun s ls => joinStr (s :: ls)) ["ab"] [["K", "K", "Y"]] :=
  c8_labels_truncated (fun s ls => joinStr (s :: ls)) ["ab"] [["K", "K", "X"]]
    [["K", "K", "Y"]] (by decide) (by decide)

/-- Claim C2, counterexample: for an end-of-sequence candidate expanding a
state with existing prediction "a" (length 1), `predict_beam` computes the
normalized score with `prediction_len = len(existing) + 1 = 2`, not with
the existing length 1 as the claim's formula states: the code yields 3/7
while the claimed formula yields 1. -/
theorem c2_counterexample :
    (stepCandidate MdlEos 1 ⟨"a", 1, 1, 3, 0⟩ 0 1 1).normalizedScore
      ≠ specScoreEos 1 (("a" : String).length : ℚ) 1 := by
  with_unfolding_all decide

/-- Claim C2 (amended): in every beam-search expansion the length penalty
is `(5 + effective_length) / 6` where `effective_length` is the new
prediction length for a non-end-of-sequence candidate and the EXISTING
prediction length PLUS ONE (the length counting the end-of-sequence step,
`prediction_len = len(prediction) + 1`) for an end-of-sequence candidate;
an end-of-sequence candidate's normalized score is additionally multiplied
by `surface_len / effective_length`. -/
theorem c2_length_penalty (M : DecoderModel) (sl : Nat) (st : BeamState) (h2 ix : Nat)
    (p : ℚ) :
    (ix = 1 → (stepCandidate M sl st h2 ix p).normalizedScore
        = st.score * p / ((5 + ((st.prediction.length : ℚ) + 1)) / 6)
            * ((sl : ℚ) / ((st.prediction.length : ℚ) + 1)))
    ∧ (ix ≠ 1 → (stepCandidate M sl st h2 ix p).normalizedScore
        = st.score * p
            / ((5 + (((st.prediction ++ M.index2token ix).length : ℚ))) / 6)) := by
  constructor
  · intro h1
    subst h1
    rw [stepCandidate_eos]
  · intro hne
    rw [stepCandidate_go M sl st h2 ix p hne]

/-- Claim C2, witness: the amended end-of-sequence formula evaluated on the
concrete expansion of the counterexample. -/
theorem c2_witness :
    (stepCandidate MdlEos 1 ⟨"a", 1, 1, 3, 0⟩ 0 1 1).normalizedScore
      = (1 : ℚ) * 1 / ((5 + ((("a" : String).length : ℚ) + 1)) / 6)
          * ((1 : ℚ) / ((("a" : String).length : ℚ) + 1)) :=
  (c2_length_penalty MdlEos 1 ⟨"a", 1, 1, 3, 0⟩ 0 1 1).1 rfl

/-- Claim C9: `predict_beam` never consults its `max_len` argument — the
parameter occurs in the Python signature but nowhere in the body, so two
calls differing only in `max_len` return identical predictions. -/
theorem c9_max_len_unused (M : DecoderModel) (h0 sl bs m1 m2 fuel : Nat) :
    predictBeam M h0 sl bs m1 fuel = predictBeam M h0 sl bs m2 fuel := rfl

/-- Claim C5: greedy decoding starts from the start-of-sequence token `2`,
stops on the first arg-max equal to end-of-sequence (or after `max_len`
steps), and its returned prediction list is exactly the token strings of
the emitted indices strictly above `2` — no pad, end-of-sequence or
start-of-sequence token is ever appended; in particular, a decoder whose
first arg-max from the start token is end-of-sequence returns the empty
list after one step. -/
theorem c5_greedy_special_tokens (M : DecoderModel) (h0 ml : Nat) :
    (∃ ixs : List Nat, predictGreedy M h0 ml = ixs.map M.index2token ∧ ∀ u ∈ ixs, 2 < u)
    ∧ (1 ≤ ml → firstIdx (topkIdx 1 (M.rawScores h0 2)) = 1 → predictGreedy M h0 ml = []) := by
  constructor
  · refine ⟨(greedyTrace M ml h0 2).1.filter (fun u => decide (2 < u)), ?_, ?_⟩
    · unfold predictGreedy
      rw [greedyLoop_eq]
      simp
    · intro u hu
      simpa using List.of_mem_filter hu
  · intro hml hu
    rcases ml with _ | m
    · omega
    · unfold predictGreedy
      simp only [greedyLoop]
      rw [if_pos hu]

/-- Claim C5, witness: a decoder whose first arg-max is end-of-sequence
yields the empty greedy prediction. -/
theorem c5_witness : predictGreedy MdlEos 0 5 = [] :=
  (c5_greedy_special_tokens MdlEos 0 5).2 (by decide) (by with_unfolding_all decide)

/-- Claim C4: every state ever added to the completed set during beam
search has a prediction of length at most `surface_len + 2`, and therefore
the sequence returned by `predict_beam` (when one is returned) has length
at most `surface_len + 2` as well. -/
theorem c4_completed_length_bound (M : DecoderModel) (h0 sl bs ml fuel : Nat) :
    (∀ x ∈ (beamLoop M bs sl fuel [initState h0] []).2, x.prediction.length ≤ sl + 2)
    ∧ ∀ s, predictBeam M h0 sl bs ml fuel = some s → s.length ≤ sl + 2 := by
  have hcomp := beamLoop_completed_bound M bs sl fuel [initState h0] [] (by simp)
  refine ⟨hcomp, ?_⟩
  intro s hs
  simp only [predictBeam] at hs
  rcases hh : sortDesc (beamLoop M bs sl fuel [initState h0] []).2 with _ | ⟨a, rest⟩
  · rw [hh] at hs
    simp at hs
  · rw [hh] at hs
    have hsa : a.prediction = s := by simpa using hs
    rw [← hsa]
    exact hcomp a (mem_sortDesc.1 (by rw [hh]; simp))

/-- Claim C4, witness: a concrete completed beam run returning the empty
prediction, which obeys the bound. -/
theorem c4_witness :
    predictBeam MdlEos 0 0 1 50 5 = some "" ∧ ("" : String).length ≤ 0 + 2 :=
  ⟨by with_unfolding_all decide,
   (c4_completed_length_bound MdlEos 0 0 1 50 5).2 "" (by with_unfolding_all decide)⟩

/-- Claim C6: `predict_beam` gives the caller an explicit failure — the
final `sorted(completed_states, ...)[0]` raises `IndexError`, rendered as
`none` — exactly when the completed set is empty; it never silently
returns an empty or undefined prediction in that case. -/
theorem c6_empty_beam_error (M : DecoderModel) (h0 sl bs ml fuel : Nat) :
    predictBeam M h0 sl bs ml fuel = none
      ↔ (beamLoop M bs sl fuel [initState h0] []).2 = [] := by
  simp only [predictBeam]
  constructor
  · intro hnone
    rcases hh : sortDesc (beamLoop M bs sl fuel [initState h0] []).2 with _ | ⟨a, rest⟩
    · exact (sortDesc_eq_nil_iff _).1 hh
    · rw [hh] at hnone
      simp at hnone
  · intro hnil
    rw [hnil]
    rfl

/-- Claim C10, counterexample: with a vocabulary mapping every index to an
empty string, beam states never grow past the `surface_len + 2` bound and
never complete, so with `surface_len = 0` and `beam_size = 1` the active
beam is still nonempty after `surface_len + 3` outer iterations — the
claimed iteration bound (and hence unconditional termination) is false. -/
theorem c10_counterexample :
    (beamLoop MdlLoop 1 0 (0 + 3) [initState 0] []).1 ≠ [] := by
  with_unfolding_all decide

/-- Claim C10 (amended): provided every vocabulary entry is a nonempty
string (true of every real character or tag vocabulary), every active
state of generation `k` has a prediction of length at least `k` (exactly
`k` when all entries are single characters), states reaching length
`surface_len + 2` are dropped without expansion, and the outer loop
terminates after at most `surface_len + 3` iterations: the active beam is
empty after `surface_len + 3` generations and further fuel changes
nothing. -/
theorem c10_termination (M : DecoderModel) (h0 sl bs : Nat)
    (htok : ∀ u, 1 ≤ (M.index2token u).length) :
    (∀ k, ∀ x ∈ (beamLoop M bs sl k [initState h0] []).1, k ≤ x.prediction.length)
    ∧ (beamLoop M bs sl (sl + 3) [initState h0] []).1 = []
    ∧ ∀ f, sl + 3 ≤ f →
        beamLoop M bs sl f [initState h0] []
          = beamLoop M bs sl (sl + 3) [initState h0] [] := by
  have hdies : (beamLoop M bs sl (sl + 3) [initState h0] []).1 = [] := by
    apply beamLoop_dies M bs sl htok (sl + 2)
    intro x hx
    have hx0 : x = initState h0 := by simpa using hx
    rw [hx0]
    simp [initState]
  refine ⟨?_, hdies, ?_⟩
  · intro k x hx
    have := beamLoop_gen_len M bs sl htok k [initState h0] [] 0 (by simp) x hx
    omega
  · intro f hf
    obtain ⟨d, rfl⟩ := Nat.exists_eq_add_of_le hf
    rw [show sl + 3 + d = d + (sl + 3) from Nat.add_comm _ _]
    rw [beamLoop_add M bs sl (sl + 3) d]
    rw [hdies, beamLoop_nil]
    exact Prod.ext hdies.symm rfl

/-- Claim C10, witness: a model with single-character tokens terminates
with an empty active beam after `surface_len + 3` iterations. -/
theorem c10_witness :
    (beamLoop MdlTok 1 0 (0 + 3) [initState 0] []).1 = [] :=
  (c10_termination MdlTok 0 0 1 (fun u => by
    show 1 ≤ (if u == 3 then "a" else "x").length
    split <;> decide)).2.1

/-- Claim C3, counterexample: a decoder whose first arg-max is the padding
index `0` breaks the claimed equality: greedy decoding skips the padding
token (returning the empty sequence), while width-1 beam search appends
the padding token's string to its prediction and returns it. -/
theorem c3_counterexample :
    predictBeam MdlPad 0 1 1 5 5 ≠ some (joinStr (predictGreedy MdlPad 0 5)) := by
  with_unfolding_all decide

/-- Claim C3 (amended): width-1 beam search equals greedy decoding
provided the greedy run reaches end-of-sequence within `max_len` steps
emitting only ordinary token indices (above `2`), the total length of the
emitted token strings fits the `surface_len + 2` drop bound, and the loop
is given enough iterations; then `predict_beam` with `beam_size = 1`
returns exactly the concatenation of greedy decoding's token sequence.
Without these conditions the results differ: beam search appends pad and
start-of-sequence tokens that greedy filters out (see the counterexample)
and is bounded by `surface_len + 2` where greedy is bounded by `max_len`. -/
theorem c3_beam1_eq_greedy (M : DecoderModel) (h0 sl ml fuel : Nat) (ts : List Nat)
    (htr : greedyTrace M ml h0 2 = (ts, true))
    (hts : ∀ u ∈ ts, 2 < u)
    (hlen : (joinStr (ts.map M.index2token)).length + 1 ≤ sl + 2)
    (hfuel : ts.length + 1 ≤ fuel) :
    predictBeam M h0 sl 1 ml fuel = some (joinStr (predictGreedy M h0 ml)) := by
  have hfilter : ts.filter (fun u => decide (2 < u)) = ts :=
    List.filter_eq_self.2 (fun u hu => by simpa using hts u hu)
  have hg : predictGreedy M h0 ml = ts.map M.index2token := by
    unfold predictGreedy
    rw [greedyLoop_eq, htr]
    simp [hfilter]
  obtain ⟨E, hE1, hE2⟩ := beamSim M sl ml h0 2 ts "" 1 1 fuel [] htr hts
    (by simpa using hlen) hfuel
  simp only [predictBeam]
  rw [show initState h0 = (⟨"", 1, 1, 2, h0⟩ : BeamState) from rfl, hE1]
  rw [List.nil_append, sortDesc_singleton]
  simp [hE2, hg]

/-- Claim C3, witness: a decoder emitting the single ordinary token `3`
("a") and then end-of-sequence; width-1 beam search returns "a", the
concatenation of the greedy token sequence. -/
theorem c3_witness :
    greedyTrace MdlTok 5 0 2 = ([3], true)
    ∧ (joinStr ([3].map MdlTok.index2token)).length + 1 ≤ 0 + 2
    ∧ [3].length + 1 ≤ 2
    ∧ predictBeam MdlTok 0 0 1 5 2 = some (joinStr (predictGreedy MdlTok 0 5)) :=
  ⟨by with_unfolding_all decide, by decide, by decide,
   c3_beam1_eq_greedy MdlTok 0 0 5 2 [3] (by with_unfolding_all decide)
     (by decide) (by decide) (by decide)⟩

end MorphTagger
